import Mathlib

/-!
Verification development for the crawlbot crawl engine.

The embedding follows the Go sources: `doc.go` (the `urls` registry),
`crawlbot.go` (`Crawler`: dispatcher drain, `AddURL`, `initializeURLs`,
`DefaultCheckURL`, `DefaultLinkFinder`), and `worker.go` (`worker.process`).
Go maps are embedded as a key list (`dom`) together with a value function
(`stateOf`), and the state index `map[State]map[string]bool` as one list per
state; `map[k] = true` becomes `insertKey`, `delete(map, k)` becomes
`eraseKey`.  External collaborators (net/url, gokogiri) are modelled only to
the extent the embedded functions consult them, as documented at each model.
-/

namespace Crawlbot

/-- URL lifecycle states, from crawlbot.go (`StateNotFound` .. `StateDone`). -/
inductive State
  | notFound
  | pending
  | running
  | rejected
  | done
  deriving DecidableEq

/-- The URL registry.  `dom` and `stateOf` together embed the Go map
`urls map[string]State` (`dom` is its key set; `stateOf` is only meaningful on
`dom`); the four `idx*` lists embed `index map[State]map[string]bool`, which
after `buildIndex` holds exactly the keys `StatePending`, `StateRunning`,
`StateRejected` and `StateDone` (there is no `StateNotFound` entry). -/
structure Urls where
  dom : List String
  stateOf : String → State
  idxPending : List String
  idxRunning : List String
  idxRejected : List String
  idxDone : List String

/-- Go `m[k] = true` on a `map[string]bool`: the key set gains `u`. -/
def insertKey (l : List String) (u : String) : List String :=
  if u ∈ l then l else u :: l

/-- Go `delete(m, k)` on a `map[string]bool`: the key set loses `u`. -/
def eraseKey (l : List String) (u : String) : List String :=
  l.filter (fun v => decide (v ≠ u))

/-- Reading `index[s]`.  A `StateNotFound` lookup hits a missing key and
yields the empty (nil) map, exactly as in Go. -/
def Urls.idx (r : Urls) : State → List String
  | .notFound => []
  | .pending => r.idxPending
  | .running => r.idxRunning
  | .rejected => r.idxRejected
  | .done => r.idxDone

/-- Replacing the set stored at `index[s]`.  Writing under `StateNotFound`
never happens in the embedded operations (in Go, inserting into that nil map
would panic, while `delete` on it is a no-op), so it is a no-op here. -/
def Urls.idxSet (r : Urls) : State → List String → Urls
  | .notFound, _ => r
  | .pending, l => { r with idxPending := l }
  | .running, l => { r with idxRunning := l }
  | .rejected, l => { r with idxRejected := l }
  | .done, l => { r with idxDone := l }

/-- Go `u.index[s][url] = true`. -/
def idxInsert (r : Urls) (s : State) (u : String) : Urls :=
  r.idxSet s (insertKey (r.idx s) u)

/-- Go `delete(u.index[s], url)`. -/
def idxErase (r : Urls) (s : State) (u : String) : Urls :=
  r.idxSet s (eraseKey (r.idx s) u)

/-- Go `u.urls[url] = s`: the `urls` map write (inserts the key if absent). -/
def mapWrite (r : Urls) (u : String) (s : State) : Urls :=
  { r with dom := insertKey r.dom u, stateOf := Function.update r.stateOf u s }

/-- A freshly made registry: both maps empty.  The `stateOf` default is never
consulted outside `dom`. -/
def emptyUrls : Urls :=
  { dom := [], stateOf := fun _ => State.notFound, idxPending := [],
    idxRunning := [], idxRejected := [], idxDone := [] }

/-- doc.go `buildIndex`: reset the four index sets and re-insert every url
under its current state.  The resulting `index[s]` holds exactly the keys of
`urls` whose state is `s`. -/
def buildIndex (r : Urls) : Urls :=
  { r with
    idxPending := r.dom.filter (fun u => decide (r.stateOf u = State.pending))
    idxRunning := r.dom.filter (fun u => decide (r.stateOf u = State.running))
    idxRejected := r.dom.filter (fun u => decide (r.stateOf u = State.rejected))
    idxDone := r.dom.filter (fun u => decide (r.stateOf u = State.done)) }

/-- One seed write of doc.go `NewUrls`: `u.urls[seed] = StatePending`. -/
def seedWrite (r : Urls) (seed : String) : Urls :=
  mapWrite r seed State.pending

/-- doc.go `NewUrls`: store every seed as Pending, then build the index. -/
def newUrls (seeds : List String) : Urls :=
  buildIndex (seeds.foldl seedWrite emptyUrls)

/-- One url of crawlbot.go `initializeURLs`: insert as Pending unless known. -/
def initSeed (r : Urls) (url : String) : Urls :=
  if url ∈ r.dom then r else mapWrite r url State.pending

/-- crawlbot.go `initializeURLs`: seed the state map, then build the index. -/
def initURLs (r : Urls) (seedURLs : List String) : Urls :=
  buildIndex (seedURLs.foldl initSeed r)

/-- The per-url body shared by doc.go `add` and crawlbot.go `AddURL`: a known
url is skipped, an unknown one is stored Pending and indexed Pending. -/
def addStep (r : Urls) (url : String) : Urls :=
  if url ∈ r.dom then r
  else idxInsert (mapWrite r url State.pending) State.pending url

/-- doc.go `add`: fold `addStep` over the given urls. -/
def add (r : Urls) (us : List String) : Urls :=
  us.foldl addStep r

/-- crawlbot.go `AddURL` (its registry mutation; the mutex is modelled
separately in `addURLLocked`). -/
def addURL (r : Urls) (url : String) : Urls :=
  addStep r url

/-- crawlbot.go `AddURL` with its mutex made explicit.  The function takes
`urlmux.Lock()` on entry; the early `return` for an already-known url skips
`urlmux.Unlock()`.  The boolean is true when `urlmux` is still held at
return. -/
def addURLLocked (r : Urls) (url : String) : Urls × Bool :=
  if url ∈ r.dom then (r, true)
  else (idxInsert (mapWrite r url State.pending) State.pending url, false)

/-- doc.go `changeState`.  Go panics when the url is unknown ("Cannot change
state of url that does not exist."), and inserting into the nil
`index[StateNotFound]` map would also panic; both aborts are `none`.  On
success: write the new state, delete from the old state's set, insert into
the new state's set. -/
def changeState (r : Urls) (url : String) (s : State) : Option Urls :=
  if url ∈ r.dom then
    if s = State.notFound then none
    else some (idxInsert (idxErase (mapWrite r url s) (r.stateOf url) url) s url)
  else none

/-- doc.go `state`: the stored state, or `StateNotFound` for unknown urls. -/
def stateQ (r : Urls) (url : String) : State :=
  if url ∈ r.dom then r.stateOf url else State.notFound

/-- doc.go `numstate`: the cardinality of `index[s]`. -/
def numstate (r : Urls) (s : State) : Nat :=
  (r.idx s).length

/-- doc.go `selectPending`: none when `index[StatePending]` is empty,
otherwise take an element (the Go `range` pick, here the list head), move it
to Running, and return it together with the updated registry. -/
def selectPending (r : Urls) : Option (String × Urls) :=
  match r.idxPending.head? with
  | none => none
  | some url =>
      some (url,
        idxInsert (idxErase (mapWrite r url State.running) State.pending url)
          State.running url)

/-- Errors a worker can surface.  `headerRejected` embeds the sentinel
`ErrHeaderRejected`; the other constructors stand for the distinct non-nil
errors of the fetch, body-read and parse steps. -/
inductive GoError
  | headerRejected
  | fetchFail (msg : String)
  | readFail (msg : String)
  | parseFail (msg : String)
  deriving DecidableEq

/-- worker.go `result` (the channel payload; the `owner` back-pointer only
identifies the worker slot and carries no registry information). -/
structure WResult where
  err : Option GoError
  url : String
  newurls : List String
  deriving DecidableEq

/-- The environment a single `worker.process` call runs against: the outcome
of each external step and of each caller hook, in pipeline order. -/
structure WorkerEnv where
  fetch : Except GoError Unit
  checkHeader : Bool
  contentType : String
  mediaType : Option String
  readBody : Except GoError Unit
  parseDoc : Except GoError Unit
  linkFinder : List String

/-- Observable actions of one `worker.process` call, in program order. -/
inductive WEvent
  | handlerCalled (errPresent : Bool)
  | bodyClosed
  | published (res : WResult)
  deriving DecidableEq

/-- Whether a media type string ends in "+xml". -/
def suffixXml : List Char → Bool
  | [] => false
  | ['+', 'x', 'm', 'l'] => true
  | _ :: cs => suffixXml cs

/-- worker.go's xml-family test: `application/xml`, `text/xml`, or `*+xml`. -/
def isXmlMedia (m : String) : Bool :=
  m = "application/xml" || m = "text/xml" || suffixXml m.data

/-- The error (if any) that worker.go's optional-parse block leaves in
`resp.Err`: a parse is attempted only when a Content-Type is present, parses
as a media type, and names html or an xml family member; its failure is
recorded but is not an exit path. -/
def parsePhaseErr (env : WorkerEnv) : Option GoError :=
  if env.contentType = "" then none
  else
    match env.mediaType with
    | none => none
    | some m =>
        if m = "text/html" || isXmlMedia m then
          match env.parseDoc with
          | .ok _ => none
          | .error e => some e
        else none

/-- worker.go `process`, as the trace of its observable actions.  Each branch
lists, in program order, the handler invocations, the body close, and the one
`sendResults` publication of that exit path. -/
def process (url : String) (env : WorkerEnv) : List WEvent :=
  match env.fetch with
  | .error e =>
      [WEvent.handlerCalled true, WEvent.published ⟨some e, url, []⟩]
  | .ok _ =>
      if env.checkHeader = false then
        [WEvent.bodyClosed,
         WEvent.published ⟨some GoError.headerRejected, url, []⟩]
      else
        match env.readBody with
        | .error e =>
            [WEvent.bodyClosed, WEvent.handlerCalled true,
             WEvent.published ⟨some e, url, []⟩]
        | .ok _ =>
            [WEvent.bodyClosed,
             WEvent.handlerCalled (parsePhaseErr env).isSome,
             WEvent.published ⟨none, url, env.linkFinder⟩]

/-- The results published on the channel during a trace, in order. -/
def publishedResults (tr : List WEvent) : List WResult :=
  tr.filterMap (fun e =>
    match e with
    | WEvent.published r => some r
    | _ => none)

/-- One new url of the dispatcher drain in crawlbot.go `Start`: already-known
urls are skipped; otherwise `CheckURL` decides between Pending and
Rejected. -/
def admitStep (chk : String → Bool) (acc : Urls) (newurl : String) : Urls :=
  if newurl ∈ acc.dom then acc
  else if chk newurl then
    idxInsert (mapWrite acc newurl State.pending) State.pending newurl
  else
    idxInsert (mapWrite acc newurl State.rejected) State.rejected newurl

/-- The registry effect of the `case res := <-results` arm of crawlbot.go
`Start`: move the url from Running to Rejected (sentinel) or Done (anything
else), then, only on a nil error, admit the returned new urls. -/
def drainResult (chk : String → Bool) (r : Urls) (res : WResult) : Urls :=
  let r1 :=
    if res.err = some GoError.headerRejected then
      idxInsert (idxErase (mapWrite r res.url State.rejected)
        State.running res.url) State.rejected res.url
    else
      idxInsert (idxErase (mapWrite r res.url State.done)
        State.running res.url) State.done res.url
  if res.err = none then res.newurls.foldl (admitStep chk) r1 else r1

/-- Spec invariant I1: every stored url is in the index set of its current
state and in no other state's set. -/
def I1 (r : Urls) : Prop :=
  ∀ u, u ∈ r.dom →
    u ∈ r.idx (r.stateOf u) ∧ ∀ s, s ≠ r.stateOf u → u ∉ r.idx s

/-- Spec invariant I2: the four index sets partition the key set of the state
map (their union is the key set and they are pairwise disjoint). -/
def I2 (r : Urls) : Prop :=
  (∀ u, (u ∈ r.idxPending ∨ u ∈ r.idxRunning ∨ u ∈ r.idxRejected ∨
    u ∈ r.idxDone) ↔ u ∈ r.dom)
  ∧ (∀ u, u ∈ r.idxPending → u ∉ r.idxRunning ∧ u ∉ r.idxRejected ∧
      u ∉ r.idxDone)
  ∧ (∀ u, u ∈ r.idxRunning → u ∉ r.idxRejected ∧ u ∉ r.idxDone)
  ∧ (∀ u, u ∈ r.idxRejected → u ∉ r.idxDone)

/-- The single characterization the preservation proofs work with: membership
in `index[s]` is exactly "stored with state `s`". -/
def Good (r : Urls) : Prop :=
  ∀ u s, u ∈ r.idx s ↔ u ∈ r.dom ∧ r.stateOf u = s

/-- Skip to the part of a url after the "://" scheme separator, if any. -/
def afterSchemeSep : List Char → Option (List Char)
  | ':' :: '/' :: '/' :: rest => some rest
  | _ :: cs => afterSchemeSep cs
  | [] => none

/-- The host characters: everything up to the next path slash. -/
def hostChars : List Char → List Char
  | [] => []
  | '/' :: _ => []
  | c :: cs => c :: hostChars cs

/-- Model of the external net/url parser, restricted to what the embedded
functions consult: whether a string parses, and the host of the parsed URL.
Faithful to net/url on the cases used here: a reference that starts with a
colon has an empty scheme and fails to parse ("missing protocol scheme",
e.g. `url.Parse(":")`); for a parsed URL the host is the segment between
"://" and the following slash, and is empty for relative references. -/
def parseHost (s : String) : Option String :=
  match s.data with
  | ':' :: _ => none
  | cs =>
      match afterSchemeSep cs with
      | none => some ""
      | some rest => some (String.mk (hostChars rest))

/-- The seed loop of crawlbot.go `DefaultCheckURL`: walk the seeds in order;
a seed that fails to parse rejects outright, a seed with the sought host
accepts, otherwise continue. -/
def checkSeeds : List String → String → Bool
  | [], _ => false
  | seed :: rest, h =>
      match parseHost seed with
      | none => false
      | some hs => if hs = h then true else checkSeeds rest h

/-- crawlbot.go `DefaultCheckURL`, with `url.Parse(...).Host` modelled by
`parseHost`: reject an unparseable input, otherwise scan the seed urls. -/
def DefaultCheckURL (seeds : List String) (checkurl : String) : Bool :=
  match parseHost checkurl with
  | none => false
  | some h => checkSeeds seeds h

/-- The anchor loop of crawlbot.go `DefaultLinkFinder`.  Each document anchor
is its href attribute, or `none` when the attribute is absent — gokogiri's
`Attr` then yields the empty string, which is what the loop parses.  An href
that fails to parse is skipped (`continue`); a parsed one is resolved against
the response URL and appended.  `parse` and `resolve` model the external
net/url `Parse` and `ResolveReference` over an abstract parsed-URL type. -/
def linkLoop {U : Type} (parse : String → Option U) (resolve : U → U → String)
    (base : U) (acc : List String) : List (Option String) → List String
  | [] => acc
  | a :: rest =>
      match parse (a.getD "") with
      | none => linkLoop parse resolve base acc rest
      | some l => linkLoop parse resolve base (acc ++ [resolve base l]) rest

/-- crawlbot.go `DefaultLinkFinder`: empty when the document was not parsed,
when the xpath search fails (`searchOk = false`), or when the response URL
does not parse; otherwise the anchor loop. -/
def DefaultLinkFinder {U : Type} (parse : String → Option U)
    (resolve : U → U → String) (searchOk : Bool)
    (doc : Option (List (Option String))) (respURL : String) : List String :=
  match doc with
  | none => []
  | some anchors =>
      if searchOk = false then []
      else
        match parse respURL with
        | none => []
        | some base => linkLoop parse resolve base [] anchors

/-- A link-extraction environment for the concrete witnesses: every string
parses as itself and an empty reference resolves to the base URL (the RFC
behaviour net/url implements); any other reference resolves to itself. -/
def idParse : String → Option String := fun s => some s

/-- The resolver paired with `idParse`. -/
def idResolve : String → String → String :=
  fun base ref => if ref = "" then base else ref

/-- A concrete worker environment whose header hook rejects. -/
def envHdrReject : WorkerEnv :=
  { fetch := Except.ok (), checkHeader := false, contentType := "",
    mediaType := none, readBody := Except.ok (), parseDoc := Except.ok (),
    linkFinder := [] }

theorem mem_insertKey {l : List String} {u v : String} :
    v ∈ insertKey l u ↔ v = u ∨ v ∈ l := by
  unfold insertKey
  by_cases h : u ∈ l
  · rw [if_pos h]
    constructor
    · exact fun hv => Or.inr hv
    · rintro (rfl | hv)
      · exact h
      · exact hv
  · rw [if_neg h]
    exact List.mem_cons

theorem insertKey_of_mem {l : List String} {u : String} (h : u ∈ l) :
    insertKey l u = l := by
  unfold insertKey
  exact if_pos h

theorem mem_eraseKey {l : List String} {u v : String} :
    v ∈ eraseKey l u ↔ v ∈ l ∧ v ≠ u := by
  simp [eraseKey, List.mem_filter]

theorem headMem {l : List String} {a : String} (h : l.head? = some a) :
    a ∈ l := by
  cases l with
  | nil => exact Option.noConfusion h
  | cons b t =>
      injection h with h2
      subst h2
      exact List.mem_cons_self b t

theorem dom_idxSet (r : Urls) (s : State) (l : List String) :
    (r.idxSet s l).dom = r.dom := by
  cases s <;> rfl

theorem stateOf_idxSet (r : Urls) (s : State) (l : List String) :
    (r.idxSet s l).stateOf = r.stateOf := by
  cases s <;> rfl

theorem idx_idxSet (r : Urls) {s : State} (l : List String) (t : State)
    (hs : s ≠ State.notFound) :
    (r.idxSet s l).idx t = if t = s then l else r.idx t := by
  cases s <;> cases t <;> simp_all [Urls.idxSet, Urls.idx]

theorem idx_mapWrite (r : Urls) (u : String) (s : State) (t : State) :
    (mapWrite r u s).idx t = r.idx t := by
  cases t <;> rfl

theorem dom_idxInsert (r : Urls) (s : State) (u : String) :
    (idxInsert r s u).dom = r.dom :=
  dom_idxSet r s _

theorem stateOf_idxInsert (r : Urls) (s : State) (u : String) :
    (idxInsert r s u).stateOf = r.stateOf :=
  stateOf_idxSet r s _

theorem idx_idxInsert (r : Urls) {s : State} (u : String) (t : State)
    (hs : s ≠ State.notFound) :
    (idxInsert r s u).idx t =
      if t = s then insertKey (r.idx s) u else r.idx t :=
  idx_idxSet r _ t hs

theorem dom_idxErase (r : Urls) (s : State) (u : String) :
    (idxErase r s u).dom = r.dom :=
  dom_idxSet r s _

theorem stateOf_idxErase (r : Urls) (s : State) (u : String) :
    (idxErase r s u).stateOf = r.stateOf :=
  stateOf_idxSet r s _

theorem idx_idxErase (r : Urls) {s : State} (u : String) (t : State)
    (hs : s ≠ State.notFound) :
    (idxErase r s u).idx t =
      if t = s then eraseKey (r.idx s) u else r.idx t :=
  idx_idxSet r _ t hs

theorem idxErase_notFound (r : Urls) (u : String) :
    idxErase r State.notFound u = r := rfl

theorem stateQ_idxSet (r : Urls) (s : State) (l : List String) (v : String) :
    stateQ (r.idxSet s l) v = stateQ r v := by
  unfold stateQ
  rw [dom_idxSet, stateOf_idxSet]

theorem stateQ_idxInsert (r : Urls) (s : State) (u : String) (v : String) :
    stateQ (idxInsert r s u) v = stateQ r v :=
  stateQ_idxSet r s _ v

theorem stateQ_idxErase (r : Urls) (s : State) (u : String) (v : String) :
    stateQ (idxErase r s u) v = stateQ r v :=
  stateQ_idxSet r s _ v

theorem stateQ_mapWrite_self (r : Urls) (u : String) (s : State) :
    stateQ (mapWrite r u s) u = s := by
  have hd : u ∈ (mapWrite r u s).dom := mem_insertKey.mpr (Or.inl rfl)
  unfold stateQ
  rw [if_pos hd]
  simp [mapWrite, Function.update_apply]

theorem stateQ_mapWrite_other (r : Urls) (u : String) (s : State) {v : String}
    (h : v ≠ u) :
    stateQ (mapWrite r u s) v = stateQ r v := by
  unfold stateQ
  have hdom : v ∈ (mapWrite r u s).dom ↔ v ∈ r.dom := by
    rw [show (mapWrite r u s).dom = insertKey r.dom u from rfl, mem_insertKey]
    simp [h]
  have hst : (mapWrite r u s).stateOf v = r.stateOf v := by
    simp [mapWrite, Function.update_apply, h]
  by_cases hv : v ∈ r.dom
  · rw [if_pos hv, if_pos (hdom.mpr hv), hst]
  · rw [if_neg hv, if_neg (fun hc => hv (hdom.mp hc))]

theorem mem_dom_mapWrite {r : Urls} {u v : String} {s : State} :
    v ∈ (mapWrite r u s).dom ↔ v = u ∨ v ∈ r.dom :=
  mem_insertKey

theorem good_iff (r : Urls) : Good r ↔ I1 r ∧ I2 r := by
  constructor
  · intro hg
    refine ⟨?_, ?_, ?_, ?_, ?_⟩
    · intro u hu
      refine ⟨(hg u (r.stateOf u)).mpr ⟨hu, rfl⟩, ?_⟩
      intro s hs hmem
      exact hs ((hg u s).mp hmem).2.symm
    · intro u
      constructor
      · rintro (hm | hm | hm | hm)
        · exact ((hg u State.pending).mp hm).1
        · exact ((hg u State.running).mp hm).1
        · exact ((hg u State.rejected).mp hm).1
        · exact ((hg u State.done).mp hm).1
      · intro hu
        have hmem := (hg u (r.stateOf u)).mpr ⟨hu, rfl⟩
        cases hst : r.stateOf u <;> rw [hst] at hmem
        · exact absurd hmem (List.not_mem_nil u)
        · exact Or.inl hmem
        · exact Or.inr (Or.inl hmem)
        · exact Or.inr (Or.inr (Or.inl hmem))
        · exact Or.inr (Or.inr (Or.inr hmem))
    · intro u hm
      have h := ((hg u State.pending).mp hm).2
      refine ⟨fun hc => ?_, fun hc => ?_, fun hc => ?_⟩
      · exact absurd (((hg u State.running).mp hc).2.symm.trans h) (by simp)
      · exact absurd (((hg u State.rejected).mp hc).2.symm.trans h) (by simp)
      · exact absurd (((hg u State.done).mp hc).2.symm.trans h) (by simp)
    · intro u hm
      have h := ((hg u State.running).mp hm).2
      refine ⟨fun hc => ?_, fun hc => ?_⟩
      · exact absurd (((hg u State.rejected).mp hc).2.symm.trans h) (by simp)
      · exact absurd (((hg u State.done).mp hc).2.symm.trans h) (by simp)
    · intro u hm
      have h := ((hg u State.rejected).mp hm).2
      intro hc
      exact absurd (((hg u State.done).mp hc).2.symm.trans h) (by simp)
  · rintro ⟨h1, h2, _, _, _⟩
    intro u s
    constructor
    · intro hmem
      have hs : s ≠ State.notFound := by
        rintro rfl
        exact absurd hmem (List.not_mem_nil u)
      have hdom : u ∈ r.dom := by
        apply (h2 u).mp
        cases s with
        | notFound => exact absurd rfl hs
        | pending => exact Or.inl hmem
        | running => exact Or.inr (Or.inl hmem)
        | rejected => exact Or.inr (Or.inr (Or.inl hmem))
        | done => exact Or.inr (Or.inr (Or.inr hmem))
      refine ⟨hdom, ?_⟩
      by_contra hne
      exact (h1 u hdom).2 s (fun h => hne h.symm) hmem
    · rintro ⟨hdom, hst⟩
      have h := (h1 u hdom).1
      rwa [hst] at h

theorem good_stateOf_ne_notFound {r : Urls} (hg : Good r) {u : String}
    (hd : u ∈ r.dom) : r.stateOf u ≠ State.notFound := by
  intro hc
  exact absurd ((hg u State.notFound).mpr ⟨hd, hc⟩) (List.not_mem_nil u)

theorem good_empty : Good emptyUrls := by
  intro u s
  cases s <;> simp [emptyUrls, Urls.idx]

theorem good_buildIndex (r : Urls)
    (h : ∀ u ∈ r.dom, r.stateOf u ≠ State.notFound) :
    Good (buildIndex r) := by
  intro u s
  cases s with
  | notFound =>
      constructor
      · intro hmem
        exact absurd hmem (List.not_mem_nil u)
      · rintro ⟨hu, hst⟩
        exact absurd hst (h u hu)
  | pending => simp [buildIndex, Urls.idx, List.mem_filter]
  | running => simp [buildIndex, Urls.idx, List.mem_filter]
  | rejected => simp [buildIndex, Urls.idx, List.mem_filter]
  | done => simp [buildIndex, Urls.idx, List.mem_filter]

theorem seedFold_pending (seeds : List String) (r : Urls)
    (h : ∀ u ∈ r.dom, r.stateOf u = State.pending) :
    ∀ u ∈ (seeds.foldl seedWrite r).dom,
      (seeds.foldl seedWrite r).stateOf u = State.pending := by
  induction seeds generalizing r with
  | nil => exact h
  | cons a rest ih =>
      intro u hu
      refine ih (seedWrite r a) ?_ u hu
      intro v hv
      by_cases hva : v = a
      · subst hva
        simp [seedWrite, mapWrite, Function.update_apply]
      · have hv2 : v ∈ r.dom := by
          rcases mem_insertKey.mp hv with h1 | h1
          · exact absurd h1 hva
          · exact h1
        show (mapWrite r a State.pending).stateOf v = State.pending
        simp only [mapWrite, Function.update_apply, if_neg hva]
        exact h v hv2

theorem initFold_pending (seeds : List String) (r : Urls)
    (h : ∀ u ∈ r.dom, r.stateOf u = State.pending) :
    ∀ u ∈ (seeds.foldl initSeed r).dom,
      (seeds.foldl initSeed r).stateOf u = State.pending := by
  induction seeds generalizing r with
  | nil => exact h
  | cons a rest ih =>
      intro u hu
      refine ih (initSeed r a) ?_ u hu
      intro v hv
      unfold initSeed at hv ⊢
      by_cases hd : a ∈ r.dom
      · rw [if_pos hd] at hv ⊢
        exact h v hv
      · rw [if_neg hd] at hv ⊢
        by_cases hva : v = a
        · subst hva
          simp [mapWrite, Function.update_apply]
        · have hv2 : v ∈ r.dom := by
            rcases mem_insertKey.mp hv with h1 | h1
            · exact absurd h1 hva
            · exact h1
          show (mapWrite r a State.pending).stateOf v = State.pending
          simp only [mapWrite, Function.update_apply, if_neg hva]
          exact h v hv2

theorem good_newUrls (seeds : List String) : Good (newUrls seeds) := by
  apply good_buildIndex
  intro u hu
  have h := seedFold_pending seeds emptyUrls
    (by intro v hv; exact absurd hv (List.not_mem_nil v)) u hu
  rw [h]
  simp

theorem good_initURLs (seeds : List String) :
    Good (initURLs emptyUrls seeds) := by
  apply good_buildIndex
  intro u hu
  have h := initFold_pending seeds emptyUrls
    (by intro v hv; exact absurd hv (List.not_mem_nil v)) u hu
  rw [h]
  simp

theorem dom_mapWrite (r : Urls) (u : String) (s : State) :
    (mapWrite r u s).dom = insertKey r.dom u := rfl

theorem stateOf_mapWrite (r : Urls) (u : String) (s : State) :
    (mapWrite r u s).stateOf = Function.update r.stateOf u s := rfl

theorem good_freshInsert (r : Urls) (url : String) {s0 : State}
    (hs0 : s0 ≠ State.notFound) (hd : url ∉ r.dom) (hg : Good r) :
    Good (idxInsert (mapWrite r url s0) s0 url) := by
  intro v s
  rw [idx_idxInsert _ _ _ hs0]
  simp only [idx_mapWrite, dom_idxInsert, stateOf_idxInsert, dom_mapWrite,
    stateOf_mapWrite, Function.update_apply]
  by_cases hss : s = s0
  · subst hss
    rw [if_pos rfl, mem_insertKey, mem_insertKey]
    by_cases hv : v = url
    · simp [hv]
    · rw [if_neg hv]
      simp only [hv, false_or]
      exact hg v s
  · rw [if_neg hss]
    by_cases hv : v = url
    · subst hv
      rw [mem_insertKey, if_pos rfl, hg v s]
      simp [hd]
      exact fun h => hss h.symm
    · rw [mem_insertKey, if_neg hv, hg v s]
      simp [hv]

theorem good_transition (r : Urls) (url : String) {s0 : State}
    (hs0 : s0 ≠ State.notFound) (hd : url ∈ r.dom) (hg : Good r) :
    Good (idxInsert (idxErase (mapWrite r url s0) (r.stateOf url) url)
      s0 url) := by
  have hold : r.stateOf url ≠ State.notFound := good_stateOf_ne_notFound hg hd
  have hE : ∀ t, (idxErase (mapWrite r url s0) (r.stateOf url) url).idx t
      = if t = r.stateOf url then eraseKey (r.idx (r.stateOf url)) url
        else r.idx t := by
    intro t
    rw [idx_idxErase _ _ _ hold]
    simp only [idx_mapWrite]
  intro v s
  rw [idx_idxInsert _ _ _ hs0]
  simp only [hE, dom_idxInsert, dom_idxErase, stateOf_idxInsert,
    stateOf_idxErase, dom_mapWrite, stateOf_mapWrite,
    insertKey_of_mem hd, Function.update_apply]
  by_cases hv : v = url
  · subst hv
    rw [if_pos rfl]
    by_cases hss : s = s0
    · subst hss
      rw [if_pos rfl, mem_insertKey]
      simp [hd]
    · rw [if_neg hss]
      by_cases hso : s = r.stateOf v
      · rw [if_pos hso, mem_eraseKey]
        simp
        exact fun _ h => hss h.symm
      · rw [if_neg hso, hg v s]
        simp
        exact fun _ => iff_of_false (fun h => hso h.symm) (fun h => hss h.symm)
  · rw [if_neg hv]
    by_cases hss : s = s0
    · rw [if_pos hss, mem_insertKey]
      simp only [hv, false_or]
      by_cases hso : s0 = r.stateOf url
      · rw [if_pos hso, mem_eraseKey]
        simp only [ne_eq, hv, not_false_eq_true, and_true]
        rw [hg v (r.stateOf url), ← hso, ← hss]
      · rw [if_neg hso, hg v s0, hss]
    · rw [if_neg hss]
      by_cases hso : s = r.stateOf url
      · rw [if_pos hso, mem_eraseKey]
        simp only [ne_eq, hv, not_false_eq_true, and_true]
        rw [hg v (r.stateOf url), ← hso]
      · rw [if_neg hso, hg v s]

theorem good_addStep (r : Urls) (url : String) (hg : Good r) :
    Good (addStep r url) := by
  unfold addStep
  by_cases hd : url ∈ r.dom
  · rwa [if_pos hd]
  · rw [if_neg hd]
    exact good_freshInsert r url (by simp) hd hg

theorem good_add (r : Urls) (us : List String) (hg : Good r) :
    Good (add r us) := by
  unfold add
  induction us generalizing r with
  | nil => exact hg
  | cons a rest ih => exact ih (addStep r a) (good_addStep r a hg)

theorem good_changeState (r : Urls) (url : String) (s : State) (r2 : Urls)
    (hg : Good r) (h : changeState r url s = some r2) : Good r2 := by
  unfold changeState at h
  by_cases hd : url ∈ r.dom
  · rw [if_pos hd] at h
    by_cases hs : s = State.notFound
    · rw [if_pos hs] at h
      exact Option.noConfusion h
    · rw [if_neg hs] at h
      injection h with h2
      subst h2
      exact good_transition r url hs hd hg
  · rw [if_neg hd] at h
    exact Option.noConfusion h

theorem good_selectPending (r : Urls) (url : String) (r2 : Urls)
    (hg : Good r) (h : selectPending r = some (url, r2)) : Good r2 := by
  unfold selectPending at h
  cases hh : r.idxPending.head? with
  | none =>
      rw [hh] at h
      exact Option.noConfusion h
  | some u0 =>
      rw [hh] at h
      injection h with h2
      injection h2 with h3 h4
      subst h3
      subst h4
      have hmem : u0 ∈ r.idx State.pending := headMem hh
      obtain ⟨hdom, hst⟩ := (hg u0 State.pending).mp hmem
      have ht := good_transition r u0
        (show State.running ≠ State.notFound by simp) hdom hg
      rwa [hst] at ht

theorem freshInsert_stable (acc : Urls) (a : String) {s0 : State}
    (hs0 : s0 ≠ State.notFound) (v : String) (hv : v ∈ acc.dom)
    (hva : v ≠ a) :
    v ∈ (idxInsert (mapWrite acc a s0) s0 a).dom
    ∧ stateQ (idxInsert (mapWrite acc a s0) s0 a) v = stateQ acc v
    ∧ ∀ t, (v ∈ (idxInsert (mapWrite acc a s0) s0 a).idx t ↔
        v ∈ acc.idx t) := by
  refine ⟨?_, ?_, ?_⟩
  · rw [dom_idxInsert]
    exact mem_dom_mapWrite.mpr (Or.inr hv)
  · rw [stateQ_idxInsert, stateQ_mapWrite_other acc a s0 hva]
  · intro t
    rw [idx_idxInsert _ _ _ hs0]
    by_cases ht : t = s0
    · subst ht
      rw [if_pos rfl, idx_mapWrite, mem_insertKey]
      simp [hva]
    · rw [if_neg ht, idx_mapWrite]

theorem admitStep_stable (chk : String → Bool) (acc : Urls) (a v : String)
    (hv : v ∈ acc.dom) :
    v ∈ (admitStep chk acc a).dom
    ∧ stateQ (admitStep chk acc a) v = stateQ acc v
    ∧ ∀ t, (v ∈ (admitStep chk acc a).idx t ↔ v ∈ acc.idx t) := by
  unfold admitStep
  by_cases hd : a ∈ acc.dom
  · rw [if_pos hd]
    exact ⟨hv, rfl, fun t => Iff.rfl⟩
  · rw [if_neg hd]
    have hva : v ≠ a := fun h => hd (h ▸ hv)
    by_cases hc : chk a = true
    · rw [if_pos hc]
      exact freshInsert_stable acc a (by simp) v hv hva
    · rw [if_neg hc]
      exact freshInsert_stable acc a (by simp) v hv hva

theorem admitFold_stable (chk : String → Bool) (l : List String) (acc : Urls)
    (v : String) (hv : v ∈ acc.dom) :
    v ∈ (l.foldl (admitStep chk) acc).dom
    ∧ stateQ (l.foldl (admitStep chk) acc) v = stateQ acc v
    ∧ ∀ t, (v ∈ (l.foldl (admitStep chk) acc).idx t ↔ v ∈ acc.idx t) := by
  induction l generalizing acc with
  | nil => exact ⟨hv, rfl, fun t => Iff.rfl⟩
  | cons a rest ih =>
      obtain ⟨h1, h2, h3⟩ := admitStep_stable chk acc a v hv
      obtain ⟨g1, g2, g3⟩ := ih (admitStep chk acc a) h1
      exact ⟨g1, g2.trans h2, fun t => (g3 t).trans (h3 t)⟩

theorem admitFold_new (chk : String → Bool) (v : String) :
    ∀ (l : List String) (acc : Urls), v ∈ l → v ∉ acc.dom →
      stateQ (l.foldl (admitStep chk) acc) v
        = (if chk v then State.pending else State.rejected)
      ∧ (chk v = true → v ∈ (l.foldl (admitStep chk) acc).idx State.pending)
      ∧ (chk v = false →
          v ∈ (l.foldl (admitStep chk) acc).idx State.rejected) := by
  intro l
  induction l with
  | nil =>
      intro acc hvl hvd
      exact absurd hvl (List.not_mem_nil v)
  | cons a rest ih =>
      intro acc hvl hvd
      simp only [List.foldl_cons]
      by_cases hva : v = a
      · subst hva
        by_cases hc : chk v = true
        · have hsq : stateQ (admitStep chk acc v) v = State.pending := by
            unfold admitStep
            rw [if_neg hvd, if_pos hc, stateQ_idxInsert, stateQ_mapWrite_self]
          have hdom : v ∈ (admitStep chk acc v).dom := by
            unfold admitStep
            rw [if_neg hvd, if_pos hc, dom_idxInsert]
            exact mem_dom_mapWrite.mpr (Or.inl rfl)
          have hidx : v ∈ (admitStep chk acc v).idx State.pending := by
            unfold admitStep
            rw [if_neg hvd, if_pos hc, idx_idxInsert _ _ _ (by simp),
              if_pos rfl]
            exact mem_insertKey.mpr (Or.inl rfl)
          obtain ⟨g1, g2, g3⟩ :=
            admitFold_stable chk rest (admitStep chk acc v) v hdom
          refine ⟨?_, ?_, ?_⟩
          · rw [g2, hsq, if_pos hc]
          · intro _
            exact (g3 State.pending).mpr hidx
          · intro hcf
            rw [hc] at hcf
            exact Bool.noConfusion hcf
        · have hcf : chk v = false := by
            cases hcc : chk v
            · rfl
            · exact absurd hcc hc
          have hsq : stateQ (admitStep chk acc v) v = State.rejected := by
            unfold admitStep
            rw [if_neg hvd, if_neg hc, stateQ_idxInsert, stateQ_mapWrite_self]
          have hdom : v ∈ (admitStep chk acc v).dom := by
            unfold admitStep
            rw [if_neg hvd, if_neg hc, dom_idxInsert]
            exact mem_dom_mapWrite.mpr (Or.inl rfl)
          have hidx : v ∈ (admitStep chk acc v).idx State.rejected := by
            unfold admitStep
            rw [if_neg hvd, if_neg hc, idx_idxInsert _ _ _ (by simp),
              if_pos rfl]
            exact mem_insertKey.mpr (Or.inl rfl)
          obtain ⟨g1, g2, g3⟩ :=
            admitFold_stable chk rest (admitStep chk acc v) v hdom
          refine ⟨?_, ?_, ?_⟩
          · rw [g2, hsq, if_neg hc]
          · intro hct
            rw [hct] at hcf
            exact Bool.noConfusion hcf
          · intro _
            exact (g3 State.rejected).mpr hidx
      · have hvd2 : v ∉ (admitStep chk acc a).dom := by
          unfold admitStep
          by_cases hd : a ∈ acc.dom
          · rw [if_pos hd]
            exact hvd
          · rw [if_neg hd]
            by_cases hc : chk a = true
            · rw [if_pos hc, dom_idxInsert]
              intro hm
              rcases mem_dom_mapWrite.mp hm with h | h
              · exact hva h
              · exact hvd h
            · rw [if_neg hc, dom_idxInsert]
              intro hm
              rcases mem_dom_mapWrite.mp hm with h | h
              · exact hva h
              · exact hvd h
        have hvl2 : v ∈ rest := by
          rcases List.mem_cons.mp hvl with h | h
          · exact absurd h hva
          · exact h
        exact ih (admitStep chk acc a) hvl2 hvd2

theorem drain_eq_of_err_none (chk : String → Bool) (r : Urls) (res : WResult)
    (h : res.err = none) :
    drainResult chk r res = res.newurls.foldl (admitStep chk)
      (idxInsert (idxErase (mapWrite r res.url State.done)
        State.running res.url) State.done res.url) := by
  unfold drainResult
  rw [h]
  simp

theorem drain_eq_of_err_hr (chk : String → Bool) (r : Urls) (res : WResult)
    (h : res.err = some GoError.headerRejected) :
    drainResult chk r res =
      idxInsert (idxErase (mapWrite r res.url State.rejected)
        State.running res.url) State.rejected res.url := by
  unfold drainResult
  rw [h]
  simp

theorem drain_eq_of_err_other (chk : String → Bool) (r : Urls) (res : WResult)
    {e : GoError} (h : res.err = some e)
    (hne : e ≠ GoError.headerRejected) :
    drainResult chk r res =
      idxInsert (idxErase (mapWrite r res.url State.done)
        State.running res.url) State.done res.url := by
  unfold drainResult
  rw [h]
  simp [hne]

theorem transition_stateQ_self (r : Urls) (u : String) (s0 : State) :
    stateQ (idxInsert (idxErase (mapWrite r u s0) State.running u) s0 u) u
      = s0 := by
  rw [stateQ_idxInsert, stateQ_idxErase, stateQ_mapWrite_self]

theorem transition_mem_self (r : Urls) (u : String) {s0 : State}
    (hs0 : s0 ≠ State.notFound) :
    u ∈ (idxInsert (idxErase (mapWrite r u s0) State.running u) s0 u).idx
      s0 := by
  rw [idx_idxInsert _ _ _ hs0, if_pos rfl]
  exact mem_insertKey.mpr (Or.inl rfl)

theorem transition_stateQ_other (r : Urls) (u : String) (s0 : State)
    {v : String} (hv : v ≠ u) :
    stateQ (idxInsert (idxErase (mapWrite r u s0) State.running u) s0 u) v
      = stateQ r v := by
  rw [stateQ_idxInsert, stateQ_idxErase, stateQ_mapWrite_other _ _ _ hv]

theorem transition_dom (r : Urls) (u : String) (s0 : State) :
    (idxInsert (idxErase (mapWrite r u s0) State.running u) s0 u).dom
      = insertKey r.dom u := by
  rw [dom_idxInsert, dom_idxErase, dom_mapWrite]

/-- C3: every registry operation — initialization from the seed list
(doc.go `NewUrls`, and crawlbot.go `initializeURLs` on a fresh registry),
`add`, `changeState` and `selectPending` — preserves invariants I1 and I2:
each stored url is in exactly the index set of its current state, and the
four index sets are pairwise disjoint with union the key set of the state
map. -/
theorem registry_ops_preserve_invariants :
    (∀ seeds, I1 (newUrls seeds) ∧ I2 (newUrls seeds))
    ∧ (∀ seeds, I1 (initURLs emptyUrls seeds) ∧ I2 (initURLs emptyUrls seeds))
    ∧ (∀ r us, I1 r → I2 r → I1 (add r us) ∧ I2 (add r us))
    ∧ (∀ r url s r2, I1 r → I2 r → changeState r url s = some r2 →
        I1 r2 ∧ I2 r2)
    ∧ (∀ r url r2, I1 r → I2 r → selectPending r = some (url, r2) →
        I1 r2 ∧ I2 r2) := by
  refine ⟨?_, ?_, ?_, ?_, ?_⟩
  · intro seeds
    exact (good_iff _).mp (good_newUrls seeds)
  · intro seeds
    exact (good_iff _).mp (good_initURLs seeds)
  · intro r us h1 h2
    exact (good_iff _).mp (good_add r us ((good_iff r).mpr ⟨h1, h2⟩))
  · intro r url s r2 h1 h2 h
    exact (good_iff _).mp
      (good_changeState r url s r2 ((good_iff r).mpr ⟨h1, h2⟩) h)
  · intro r url r2 h1 h2 h
    exact (good_iff _).mp
      (good_selectPending r url r2 ((good_iff r).mpr ⟨h1, h2⟩) h)

/-- Witness for C3 at a concrete registry: adding a new url to the seeded
registry preserves I1 and I2. -/
theorem registry_ops_preserve_invariants_witness :
    I1 (add (newUrls ["http://a.test/"]) ["http://a.test/b"])
    ∧ I2 (add (newUrls ["http://a.test/"]) ["http://a.test/b"]) :=
  registry_ops_preserve_invariants.2.2.1 (newUrls ["http://a.test/"])
    ["http://a.test/b"]
    ((good_iff _).mp (good_newUrls _)).1
    ((good_iff _).mp (good_newUrls _)).2

/-- C4: `selectPending` returns none exactly when the Pending index set is
empty; otherwise it returns some url that was Pending, and afterwards that
url is Running — removed from the Pending index set and inserted into the
Running set — with every other registry entry unchanged. -/
theorem selectPending_spec (r : Urls) (h1 : I1 r) (h2 : I2 r) :
    (selectPending r = none ↔ r.idxPending = [])
    ∧ ∀ url r2, selectPending r = some (url, r2) →
        stateQ r url = State.pending
        ∧ stateQ r2 url = State.running
        ∧ url ∉ r2.idxPending
        ∧ url ∈ r2.idxRunning
        ∧ r2.dom = r.dom
        ∧ (∀ v, v ≠ url → stateQ r2 v = stateQ r v)
        ∧ (∀ v, v ≠ url → ((v ∈ r2.idxPending ↔ v ∈ r.idxPending)
            ∧ (v ∈ r2.idxRunning ↔ v ∈ r.idxRunning)))
        ∧ r2.idxRejected = r.idxRejected
        ∧ r2.idxDone = r.idxDone := by
  have hg : Good r := (good_iff r).mpr ⟨h1, h2⟩
  constructor
  · constructor
    · intro hn
      cases hl : r.idxPending with
      | nil => rfl
      | cons a t =>
          unfold selectPending at hn
          rw [hl] at hn
          simp at hn
    · intro hl
      unfold selectPending
      rw [hl]
      rfl
  · intro url r2 hsel
    unfold selectPending at hsel
    cases hh : r.idxPending.head? with
    | none =>
        rw [hh] at hsel
        exact Option.noConfusion hsel
    | some u0 =>
        rw [hh] at hsel
        injection hsel with h2
        injection h2 with h3 h4
        subst h3
        subst h4
        have hmem : u0 ∈ r.idx State.pending := headMem hh
        obtain ⟨hdom, hst⟩ := (hg u0 State.pending).mp hmem
        refine ⟨?_, ?_, ?_, ?_, ?_, ?_, ?_, rfl, rfl⟩
        · unfold stateQ
          rw [if_pos hdom, hst]
        · rw [stateQ_idxInsert, stateQ_idxErase, stateQ_mapWrite_self]
        · show u0 ∉ eraseKey r.idxPending u0
          intro hc
          exact (mem_eraseKey.mp hc).2 rfl
        · show u0 ∈ insertKey r.idxRunning u0
          exact mem_insertKey.mpr (Or.inl rfl)
        · show insertKey r.dom u0 = r.dom
          exact insertKey_of_mem hdom
        · intro v hv
          rw [stateQ_idxInsert, stateQ_idxErase,
            stateQ_mapWrite_other _ _ _ hv]
        · intro v hv
          constructor
          · show v ∈ eraseKey r.idxPending u0 ↔ v ∈ r.idxPending
            rw [mem_eraseKey]
            simp [hv]
          · show v ∈ insertKey r.idxRunning u0 ↔ v ∈ r.idxRunning
            rw [mem_insertKey]
            simp [hv]

/-- Witness for C4 at the singleton seeded registry. -/
theorem selectPending_spec_witness :
    selectPending (newUrls ["http://a.test/"]) = none ↔
      (newUrls ["http://a.test/"]).idxPending = [] :=
  (selectPending_spec (newUrls ["http://a.test/"])
    ((good_iff _).mp (good_newUrls _)).1
    ((good_iff _).mp (good_newUrls _)).2).1

/-- C6: Add is idempotent — performing `Add(u)` twice leaves the registry
(state map and index) identical to a single `Add(u)`; an already-present url
is ignored with no state change and no error, and a new url is inserted with
state Pending and indexed Pending. -/
theorem addURL_idempotent (r : Urls) (u : String) :
    addURL (addURL r u) u = addURL r u
    ∧ (u ∈ r.dom → addURL r u = r)
    ∧ (u ∉ r.dom → u ∈ (addURL r u).dom
        ∧ (addURL r u).stateOf u = State.pending
        ∧ u ∈ (addURL r u).idxPending) := by
  have hid : ∀ r2 : Urls, u ∈ r2.dom → addURL r2 u = r2 := by
    intro r2 hd
    unfold addURL addStep
    rw [if_pos hd]
  refine ⟨?_, ?_, ?_⟩
  · by_cases hd : u ∈ r.dom
    · rw [hid r hd]
      exact hid r hd
    · have hd2 : u ∈ (addURL r u).dom := by
        unfold addURL addStep
        rw [if_neg hd, dom_idxInsert]
        exact mem_dom_mapWrite.mpr (Or.inl rfl)
      exact hid (addURL r u) hd2
  · exact hid r
  · intro hd
    refine ⟨?_, ?_, ?_⟩
    · unfold addURL addStep
      rw [if_neg hd, dom_idxInsert]
      exact mem_dom_mapWrite.mpr (Or.inl rfl)
    · unfold addURL addStep
      rw [if_neg hd, stateOf_idxInsert, stateOf_mapWrite]
      simp [Function.update_apply]
    · unfold addURL addStep
      rw [if_neg hd]
      show u ∈ insertKey r.idxPending u
      exact mem_insertKey.mpr (Or.inl rfl)

/-- Witness for C6: the already-known seed url is ignored by `addURL`. -/
theorem addURL_idempotent_witness :
    addURL (newUrls ["http://a.test/"]) "http://a.test/"
      = newUrls ["http://a.test/"] :=
  (addURL_idempotent (newUrls ["http://a.test/"]) "http://a.test/").2.1
    (by decide)

/-- C7: `changeState` on a present url removes it from its old state's index
set, assigns the new state, and inserts it into the new state's index set,
leaving every other entry unchanged; on an absent url it fails with the
unknown-url panic (modelled as none) and no updated registry exists. -/
theorem changeState_spec (r : Urls) (url : String) (s : State) :
    (url ∉ r.dom → changeState r url s = none)
    ∧ (url ∈ r.dom → s ≠ State.notFound →
        (changeState r url s).isSome = true)
    ∧ (∀ r2, changeState r url s = some r2 →
        stateQ r2 url = s
        ∧ url ∈ r2.idx s
        ∧ (r.stateOf url ≠ s → url ∉ r2.idx (r.stateOf url))
        ∧ (∀ v, v ≠ url → stateQ r2 v = stateQ r v)
        ∧ (∀ v t, v ≠ url → (v ∈ r2.idx t ↔ v ∈ r.idx t))) := by
  refine ⟨?_, ?_, ?_⟩
  · intro hd
    unfold changeState
    rw [if_neg hd]
  · intro hd hs
    unfold changeState
    rw [if_pos hd, if_neg hs]
    rfl
  · intro r2 h
    unfold changeState at h
    by_cases hd : url ∈ r.dom
    · rw [if_pos hd] at h
      by_cases hs : s = State.notFound
      · rw [if_pos hs] at h
        exact Option.noConfusion h
      · rw [if_neg hs] at h
        injection h with h2
        subst h2
        refine ⟨?_, ?_, ?_, ?_, ?_⟩
        · rw [stateQ_idxInsert, stateQ_idxErase, stateQ_mapWrite_self]
        · rw [idx_idxInsert _ _ _ hs, if_pos rfl]
          exact mem_insertKey.mpr (Or.inl rfl)
        · intro hne
          rw [idx_idxInsert _ _ _ hs, if_neg hne]
          by_cases ho : r.stateOf url = State.notFound
          · rw [ho, idxErase_notFound]
            exact fun hc => absurd hc (List.not_mem_nil url)
          · rw [idx_idxErase _ _ _ ho, if_pos rfl, mem_eraseKey]
            simp
        · intro v hv
          rw [stateQ_idxInsert, stateQ_idxErase,
            stateQ_mapWrite_other _ _ _ hv]
        · intro v t hv
          rw [idx_idxInsert _ _ _ hs]
          by_cases ho : r.stateOf url = State.notFound
          · rw [ho, idxErase_notFound]
            by_cases ht : t = s
            · rw [if_pos ht, idx_mapWrite, mem_insertKey, ht]
              simp [hv]
            · rw [if_neg ht, idx_mapWrite]
          · have hE : ∀ x,
                (idxErase (mapWrite r url s) (r.stateOf url) url).idx x
                  = if x = r.stateOf url then
                      eraseKey (r.idx (r.stateOf url)) url
                    else r.idx x := by
              intro x
              rw [idx_idxErase _ _ _ ho]
              simp only [idx_mapWrite]
            by_cases ht : t = s
            · rw [if_pos ht, hE, mem_insertKey]
              by_cases hso : s = r.stateOf url
              · rw [if_pos hso, mem_eraseKey, ht, hso]
                simp [hv]
              · rw [if_neg hso, ht]
                simp [hv]
            · rw [if_neg ht, hE]
              by_cases hto : t = r.stateOf url
              · rw [if_pos hto, mem_eraseKey, hto]
                simp [hv]
              · rw [if_neg hto]
    · rw [if_neg hd] at h
      exact Option.noConfusion h

/-- Witness for C7: changing the seed url to Done succeeds on the seeded
registry. -/
theorem changeState_spec_witness :
    (changeState (newUrls ["http://a.test/"]) "http://a.test/"
      State.done).isSome = true :=
  (changeState_spec (newUrls ["http://a.test/"]) "http://a.test/"
    State.done).2.1 (by decide) (by decide)

/-- C2: draining a result moves its url to Rejected exactly on the
HeaderRejected sentinel and to Done on every other outcome (success or other
error); only a nil-error result has its new urls processed — each returned
url not already in the registry goes through the URL-admission hook and is
enqueued Pending on accept and Rejected on reject, while already-known urls
keep their state. -/
theorem dispatcher_drain_spec (chk : String → Bool) (r : Urls)
    (res : WResult) :
    (res.err = some GoError.headerRejected →
        stateQ (drainResult chk r res) res.url = State.rejected
        ∧ res.url ∈ (drainResult chk r res).idx State.rejected)
    ∧ (res.err ≠ some GoError.headerRejected →
        stateQ (drainResult chk r res) res.url = State.done
        ∧ res.url ∈ (drainResult chk r res).idx State.done)
    ∧ (∀ v, v ∈ r.dom → v ≠ res.url →
        stateQ (drainResult chk r res) v = stateQ r v)
    ∧ (res.err ≠ none → ∀ v, v ≠ res.url →
        stateQ (drainResult chk r res) v = stateQ r v)
    ∧ (res.err = none → ∀ v, v ∈ res.newurls → v ∉ r.dom → v ≠ res.url →
        stateQ (drainResult chk r res) v
          = (if chk v then State.pending else State.rejected)
        ∧ (chk v = true → v ∈ (drainResult chk r res).idx State.pending)
        ∧ (chk v = false →
            v ∈ (drainResult chk r res).idx State.rejected)) := by
  refine ⟨?_, ?_, ?_, ?_, ?_⟩
  · intro hre
    rw [drain_eq_of_err_hr chk r res hre]
    exact ⟨transition_stateQ_self r res.url State.rejected,
      transition_mem_self r res.url (by simp)⟩
  · intro hne
    cases he : res.err with
    | none =>
        rw [drain_eq_of_err_none chk r res he]
        obtain ⟨g1, g2, g3⟩ := admitFold_stable chk res.newurls
          (idxInsert (idxErase (mapWrite r res.url State.done)
            State.running res.url) State.done res.url) res.url
          (by rw [transition_dom]; exact mem_insertKey.mpr (Or.inl rfl))
        refine ⟨?_, ?_⟩
        · rw [g2, transition_stateQ_self]
        · exact (g3 State.done).mpr (transition_mem_self r res.url (by simp))
    | some e =>
        have hne2 : e ≠ GoError.headerRejected := by
          intro hc
          subst hc
          exact hne he
        rw [drain_eq_of_err_other chk r res he hne2]
        exact ⟨transition_stateQ_self r res.url State.done,
          transition_mem_self r res.url (by simp)⟩
  · intro v hvd hv
    cases he : res.err with
    | none =>
        rw [drain_eq_of_err_none chk r res he]
        obtain ⟨g1, g2, g3⟩ := admitFold_stable chk res.newurls
          (idxInsert (idxErase (mapWrite r res.url State.done)
            State.running res.url) State.done res.url) v
          (by rw [transition_dom]; exact mem_insertKey.mpr (Or.inr hvd))
        rw [g2, transition_stateQ_other _ _ _ hv]
    | some e =>
        by_cases hehr : e = GoError.headerRejected
        · subst hehr
          rw [drain_eq_of_err_hr chk r res he]
          exact transition_stateQ_other _ _ _ hv
        · rw [drain_eq_of_err_other chk r res he hehr]
          exact transition_stateQ_other _ _ _ hv
  · intro hne v hv
    cases he : res.err with
    | none => exact absurd he hne
    | some e =>
        by_cases hehr : e = GoError.headerRejected
        · subst hehr
          rw [drain_eq_of_err_hr chk r res he]
          exact transition_stateQ_other _ _ _ hv
        · rw [drain_eq_of_err_other chk r res he hehr]
          exact transition_stateQ_other _ _ _ hv
  · intro he v hvl hvd hvu
    rw [drain_eq_of_err_none chk r res he]
    apply admitFold_new chk v res.newurls _ hvl
    rw [transition_dom]
    intro hm
    rcases mem_insertKey.mp hm with h | h
    · exact hvu h
    · exact hvd h

/-- Witness for C2 at a concrete header-rejected result. -/
theorem dispatcher_drain_spec_witness :
    stateQ (drainResult (fun _ => true) (newUrls ["http://a.test/"])
        ⟨some GoError.headerRejected, "http://a.test/", []⟩)
      "http://a.test/" = State.rejected :=
  ((dispatcher_drain_spec (fun _ => true) (newUrls ["http://a.test/"])
    ⟨some GoError.headerRejected, "http://a.test/", []⟩).1 rfl).1

/-- C1: when the header-admission hook returns false (after a successful
fetch), `worker.process` closes the response body, does not invoke the page
handler, and publishes exactly one result carrying the HeaderRejected
sentinel and an empty new-url list. -/
theorem worker_header_rejected (url : String) (env : WorkerEnv)
    (hf : env.fetch = Except.ok ()) (hh : env.checkHeader = false) :
    WEvent.bodyClosed ∈ process url env
    ∧ (∀ b, WEvent.handlerCalled b ∉ process url env)
    ∧ publishedResults (process url env)
        = [⟨some GoError.headerRejected, url, []⟩] := by
  unfold process
  rw [hf, hh]
  simp [publishedResults]

/-- Witness for C1 at a concrete environment. -/
theorem worker_header_rejected_witness :
    publishedResults (process "http://a.test/" envHdrReject)
      = [⟨some GoError.headerRejected, "http://a.test/", []⟩] :=
  (worker_header_rejected "http://a.test/" envHdrReject rfl rfl).2.2

/-- C5: every `worker.process` call publishes exactly one result on the
results channel, on every exit path of the pipeline — fetch failure, header
rejection, body-read failure, parse failure (not an exit: the pipeline
continues to the single success publication), and success. -/
theorem worker_publishes_exactly_once (url : String) (env : WorkerEnv) :
    (publishedResults (process url env)).length = 1 := by
  unfold process
  cases env.fetch with
  | error e => simp [publishedResults]
  | ok u =>
      by_cases hh : env.checkHeader = false
      · rw [if_pos hh]
        simp [publishedResults]
      · rw [if_neg hh]
        cases env.readBody with
        | error e => simp [publishedResults]
        | ok u2 => simp [publishedResults]

/-- C10 (the code violates the claim): `Crawler.AddURL` takes
`urlmux.Lock()` on entry and, when the url is already known, returns through
the early branch that skips `urlmux.Unlock()` — at return the mutex is still
held, so the next registry operation can never acquire it. -/
theorem addURL_lock_leak :
    (addURLLocked (newUrls ["http://a.test/"]) "http://a.test/").2
      = true := by
  decide

theorem checkSeeds_iff (h0 : String) :
    ∀ seeds : List String, (∀ s ∈ seeds, (parseHost s).isSome = true) →
      (checkSeeds seeds h0 = true ↔
        ∃ s, s ∈ seeds ∧ parseHost s = some h0) := by
  intro seeds
  induction seeds with
  | nil =>
      intro _
      simp [checkSeeds]
  | cons a rest ih =>
      intro hs
      unfold checkSeeds
      cases hpa : parseHost a with
      | none =>
          exfalso
          have h := hs a (List.mem_cons_self a rest)
          rw [hpa] at h
          exact Bool.noConfusion h
      | some ha =>
          change (if ha = h0 then true else checkSeeds rest h0) = true ↔ _
          by_cases hha : ha = h0
          · rw [if_pos hha]
            constructor
            · intro _
              exact ⟨a, List.mem_cons_self a rest, by rw [hpa, hha]⟩
            · intro _
              rfl
          · rw [if_neg hha,
              ih (fun s hsm => hs s (List.mem_cons_of_mem a hsm))]
            constructor
            · rintro ⟨s, hsm, hsp⟩
              exact ⟨s, List.mem_cons_of_mem a hsm, hsp⟩
            · rintro ⟨s, hsm, hsp⟩
              rcases List.mem_cons.mp hsm with rfl | hsm2
              · rw [hpa] at hsp
                injection hsp with h2
                exact absurd h2 hha
              · exact ⟨s, hsm2, hsp⟩

/-- C8 counterexample: with seeds `[":", "http://x/"]` the input
"http://x/a" parses and its host "x" equals the host of the second seed, yet
`DefaultCheckURL` rejects it, because the seed loop returns false at the
first seed, which does not parse (net/url rejects ":").  The claimed iff
therefore fails at this input. -/
theorem defaultCheckURL_counterexample :
    DefaultCheckURL [":", "http://x/"] "http://x/a" = false
    ∧ parseHost "http://x/a" = some "x"
    ∧ ("http://x/" ∈ [":", "http://x/"]
        ∧ parseHost "http://x/" = some "x") := by
  decide

/-- C8 amended: provided every seed url parses, the default URL-admission
hook accepts exactly when the input parses and its host equals the host of
at least one seed; an unparseable input is always rejected (and, per the
counterexample, an unparseable seed reached before any matching seed causes
rejection regardless of later seeds). -/
theorem defaultCheckURL_amended (seeds : List String) (u : String)
    (hseeds : ∀ s ∈ seeds, (parseHost s).isSome = true) :
    (DefaultCheckURL seeds u = true ↔
      ∃ h, parseHost u = some h ∧ ∃ s, s ∈ seeds ∧ parseHost s = some h)
    ∧ (parseHost u = none → DefaultCheckURL seeds u = false) := by
  constructor
  · unfold DefaultCheckURL
    cases hp : parseHost u with
    | none => simp
    | some h0 =>
        rw [checkSeeds_iff h0 seeds hseeds]
        constructor
        · rintro ⟨s, hsm, hsp⟩
          exact ⟨h0, rfl, s, hsm, hsp⟩
        · rintro ⟨h, hh, s, hsm, hsp⟩
          injection hh with h2
          subst h2
          exact ⟨s, hsm, hsp⟩
  · intro hp
    unfold DefaultCheckURL
    rw [hp]

/-- Witness for the amended C8 with a parseable seed list. -/
theorem defaultCheckURL_amended_witness :
    DefaultCheckURL ["http://x/"] "http://x/a" = true ↔
      ∃ h, parseHost "http://x/a" = some h
        ∧ ∃ s, s ∈ ["http://x/"] ∧ parseHost s = some h :=
  (defaultCheckURL_amended ["http://x/"] "http://x/a" (by decide)).1

theorem linkLoop_eq {U : Type} (parse : String → Option U)
    (resolve : U → U → String) (base : U) :
    ∀ (anchors : List (Option String)) (acc : List String),
      linkLoop parse resolve base acc anchors
        = acc ++ anchors.filterMap
            (fun a => (parse (a.getD "")).map (fun l => resolve base l)) := by
  intro anchors
  induction anchors with
  | nil =>
      intro acc
      simp [linkLoop]
  | cons a rest ih =>
      intro acc
      unfold linkLoop
      cases hp : parse (a.getD "") with
      | none =>
          change linkLoop parse resolve base acc rest = _
          rw [ih]
          simp [List.filterMap_cons, hp]
      | some l =>
          change linkLoop parse resolve base (acc ++ [resolve base l])
            rest = _
          rw [ih]
          simp [List.filterMap_cons, hp]

/-- C9 counterexample: on a parsed document whose single `<a>` element has
no href attribute, gokogiri's `Attr` yields the empty string, which parses
and resolves to the response URL — `DefaultLinkFinder` returns that URL,
although the document's list of href-bearing anchors (and hence the output
the claim describes) is empty. -/
theorem defaultLinkFinder_counterexample :
    DefaultLinkFinder idParse idResolve true (some [none]) "http://x/"
      = ["http://x/"]
    ∧ ([none] : List (Option String)).filterMap (fun a => a) = [] := by
  constructor
  · rfl
  · rfl

/-- C9 amended: for every parsed document, `DefaultLinkFinder` returns, for
each `<a>` element, the resolution against the response URL of its href
attribute value — taken as the empty string when the attribute is absent;
an href that fails to parse is skipped without error and without aborting
the rest of the extraction. -/
theorem defaultLinkFinder_amended {U : Type} (parse : String → Option U)
    (resolve : U → U → String) (anchors : List (Option String))
    (respURL : String) (base : U) (hb : parse respURL = some base) :
    DefaultLinkFinder parse resolve true (some anchors) respURL
      = anchors.filterMap
          (fun a => (parse (a.getD "")).map (fun l => resolve base l)) := by
  unfold DefaultLinkFinder
  change (if (true : Bool) = false then []
    else match parse respURL with
      | none => []
      | some b => linkLoop parse resolve b [] anchors) = _
  rw [if_neg (by simp : ¬ (true : Bool) = false), hb]
  change linkLoop parse resolve base [] anchors = _
  rw [linkLoop_eq]
  simp

/-- Witness for the amended C9 at a concrete document. -/
theorem defaultLinkFinder_amended_witness :
    DefaultLinkFinder idParse idResolve true (some [some "y"]) "b"
      = ["y"] := by
  rw [defaultLinkFinder_amended idParse idResolve [some "y"] "b" "b" rfl]
  rfl

end Crawlbot
